import Mathlib

/-!
Shallow embedding of the mygekko-mqtt bridge core (`bridge.go` of
isnogudus/mygekko-mqtt): field-format parsing, schema-registry
construction, status decoding with history deduplication, set-command
routing, and the dual-cadence polling schedule.

Modelling choices:
* Go strings are modelled as `List Char` (`Str`); the single-character
  separators used by the code (`;`, `/`, ` `, `[`, `:`, `.`) make
  `strings.Split`, `strings.SplitN(_, _, 2)`, `strings.Cut` and
  `strings.Index` expressible with `splitOnChar`/`cutChar`.
* Go maps are modelled as association lists with Go map read/write
  semantics (`alookup`/`ainsert`); map iteration order is fixed to
  document order.
* Go `int` is modelled as unbounded `Int` (overflow abstracted);
  `float64` values are modelled as exact decimal rationals `Dec10`
  (a canonical `num / 10 ^ exp` pair): `strconv.ParseFloat` is embedded
  as exact decimal parsing, abstracting binary64 rounding and the
  `Inf`/`NaN`/hex/underscore forms, none of which the verified
  properties depend on; equality of two parsed decimals coincides with
  equality of their exact rational values.
* MQTT publishes are modelled as the list of (topic, value) pairs the
  code hands to the `Publish` / `PublishJSON` capabilities, and the
  fatal `os.Exit` paths (conversion failure during a poll, malformed
  inbound topic) as a `none` result.
-/

/-- Go strings, modelled as their character lists. -/
abbrev Str := List Char

/-- Go `strings.Split s sep` for a one-character separator: split on every
occurrence; the empty string yields `[[]]`, exactly as in Go. -/
def splitOnChar (sep : Char) : Str → List Str
  | [] => [[]]
  | c :: rest =>
    if c = sep then [] :: splitOnChar sep rest
    else
      match splitOnChar sep rest with
      | [] => [[c]]
      | p :: ps => (c :: p) :: ps

/-- Go `strings.Cut s sep` for a one-character separator: split around the
first occurrence, `none` when the separator is absent.  Also embeds
`strings.SplitN s sep 2` (parts iff `some`) and `strings.Index` followed by
slicing (the first component is the text before the first occurrence). -/
def cutChar (sep : Char) : Str → Option (Str × Str)
  | [] => none
  | c :: rest =>
    if c = sep then some ([], rest)
    else
      match cutChar sep rest with
      | none => none
      | some (a, b) => some (c :: a, b)

/-- The whitespace class trimmed by Go `strings.TrimSpace`, restricted to
its ASCII members (the Unicode space classes are abstracted away). -/
def isSpaceChar (c : Char) : Bool :=
  c == ' ' || c == '\t' || c == '\n' || c == '\x0b' || c == '\x0c' || c == '\r'

/-- Go `strings.TrimSpace`. -/
def trimSpace (s : Str) : Str :=
  ((s.dropWhile isSpaceChar).reverse.dropWhile isSpaceChar).reverse

/-- One decimal digit of an ASCII base-10 numeral. -/
def digitVal (c : Char) : Option Nat :=
  if '0' ≤ c ∧ c ≤ '9' then some (c.toNat - '0'.toNat) else none

/-- Accumulating base-10 parse; fails on the first non-digit. -/
def digitsAux (acc : Nat) : Str → Option Nat
  | [] => some acc
  | c :: rest =>
    match digitVal c with
    | some d => digitsAux (acc * 10 + d) rest
    | none => none

/-- A non-empty all-digit string parsed in base 10, `none` otherwise. -/
def digitsToNat : Str → Option Nat
  | [] => none
  | s => digitsAux 0 s

/-- Go `strconv.Atoi`: optional sign followed by one or more decimal
digits (the 64-bit range error is abstracted: `Int` is unbounded). -/
def atoi : Str → Option Int
  | '+' :: rest => (digitsToNat rest).map Int.ofNat
  | '-' :: rest => (digitsToNat rest).map fun n => -(n : Int)
  | s => (digitsToNat s).map Int.ofNat

/-- The mantissa accepted by Go `strconv.ParseFloat`: digits, optionally
with one decimal point; `"12."` and `".5"` are accepted, `"."` is not.
The result `(m, k)` denotes the exact rational `m / 10 ^ k`. -/
def parseFloatCore (s : Str) : Option (Int × Nat) :=
  match cutChar '.' s with
  | none => (digitsToNat s).map fun n => ((n : Int), 0)
  | some (ip, fp) =>
    if ip = [] ∧ fp = [] then none
    else do
      let ipn ← if ip = [] then some 0 else digitsToNat ip
      let fpn ← if fp = [] then some 0 else digitsToNat fp
      pure (((ipn * 10 ^ fp.length + fpn : Nat) : Int), fp.length)

/-- Scale the denoted rational `m / 10 ^ k` by `10 ^ ev`. -/
def applyExp : Int × Nat → Int → Int × Nat
  | (m, k), .ofNat n => (m * 10 ^ n, k)
  | (m, k), .negSucc n => (m, k + (n + 1))

/-- Unsigned decimal with an optional `e`/`E` exponent part. -/
def parseFloatBody (body : Str) : Option (Int × Nat) :=
  match cutChar 'e' body with
  | some (m, e) => do
    let mq ← parseFloatCore m
    let ev ← atoi e
    pure (applyExp mq ev)
  | none =>
    match cutChar 'E' body with
    | some (m, e) => do
      let mq ← parseFloatCore m
      let ev ← atoi e
      pure (applyExp mq ev)
    | none => parseFloatCore body

/-- Strip common factors of 10 from `m / 10 ^ k`, so that two pairs
denote the same rational iff the canonical forms are equal. -/
def canonDec : Int → Nat → Int × Nat
  | m, 0 => (m, 0)
  | m, k + 1 => if m % 10 = 0 then canonDec (m / 10) k else (m, k + 1)

/-- A parsed `float64` value: the exact decimal rational `num / 10 ^ exp`
in canonical form (binary64 rounding abstracted; equality of two parsed
decimals is equality of their exact rational values, matching Go's `==`
on the parsed results up to that abstraction). -/
structure Dec10 where
  num : Int
  exp : Nat
deriving DecidableEq, Repr

/-- Canonicalizing constructor for `Dec10`. -/
def mkDec10 (m : Int) (k : Nat) : Dec10 :=
  ⟨(canonDec m k).1, (canonDec m k).2⟩

/-- Go `strconv.ParseFloat _ 64` on the decimal forms, as an exact
decimal rational (binary64 rounding and `Inf`/`NaN`/hex/underscores
abstracted). -/
def parseFloat : Str → Option Dec10
  | '+' :: body => (parseFloatBody body).map fun p => mkDec10 p.1 p.2
  | '-' :: body => (parseFloatBody body).map fun p => mkDec10 (-p.1) p.2
  | body => (parseFloatBody body).map fun p => mkDec10 p.1 p.2

/-- Go map read `m[k]` on an association list (first binding wins, as Go
maps have unique keys). -/
def alookup {α : Type} (k : Str) : List (Str × α) → Option α
  | [] => none
  | (k1, v) :: rest => if k = k1 then some v else alookup k rest

/-- Go map write `m[k] = v` on an association list: replace the existing
binding or append a new one. -/
def ainsert {α : Type} (k : Str) (v : α) : List (Str × α) → List (Str × α)
  | [] => [(k, v)]
  | (k1, v1) :: rest =>
    if k = k1 then (k, v) :: rest else (k1, v1) :: ainsert k v rest

/-- `FieldDef` of bridge.go.  The Go field `Type` is a Lean keyword, so it
is rendered `Typ`: `"int"`, `"float"`, `"string"`, or `""` (= the spec's
Skip kind) to skip. -/
structure FieldDef where
  Name : Str
  Typ : Str
deriving DecidableEq, Repr

/-- A typed value as produced by the decoder and stored in the bridge's
history map (`any` holding `int`, `float64` or `string` in Go; Go's `==`
on `any` is exactly `DecidableEq` here: values of different dynamic types
are never equal). -/
inductive GVal where
  | vInt : Int → GVal
  | vFloat : Dec10 → GVal
  | vStr : Str → GVal
deriving DecidableEq, Repr

/-- A fragment of the device's decoded JSON documents (`any` in Go):
enough structure for the type assertions the bridge performs.  `jother`
stands for any value that fails every assertion the code makes. -/
inductive JVal where
  | jstr : Str → JVal
  | jobj : List (Str × JVal) → JVal
  | jother : JVal

instance : Inhabited JVal := ⟨.jother⟩

/-- The history cache: Go `map[string]any` keyed by
`"category/item/field"`. -/
abbrev HistMap := List (Str × GVal)

/-- The history key `fmt.Sprintf("%s/%s/%s", category, item, field.Name)`. -/
def histKey (cat item name : Str) : Str :=
  cat ++ '/' :: item ++ '/' :: name

/-- The scalar publish topic
`fmt.Sprintf("%s/%s/%s/get/%s", gekkoName, category, item, field.Name)`. -/
def fieldTopic (g cat item name : Str) : Str :=
  g ++ '/' :: cat ++ '/' :: item ++ "/get/".data ++ name

/-- The aggregate publish topic
`fmt.Sprintf("%s/%s/%s/get/json", gekkoName, category, item)`. -/
def jsonTopic (g cat item : Str) : Str :=
  g ++ '/' :: cat ++ '/' :: item ++ "/get/json".data

/-- Outcome of the `switch field.Type` conversion in `processItem`:
an unknown type string falls to `continue` (`skip`), a failed
`Atoi`/`ParseFloat` is the fatal `os.Exit(5)` path (`fatal`). -/
inductive Conv where
  | skip : Conv
  | fatal : Conv
  | ok : GVal → Conv
deriving DecidableEq, Repr

/-- The `switch field.Type` conversion of one raw token in `processItem`. -/
def convertValue (ty raw : Str) : Conv :=
  if ty = "int".data then
    match atoi raw with
    | some n => .ok (.vInt n)
    | none => .fatal
  else if ty = "float".data then
    match parseFloat raw with
    | some q => .ok (.vFloat q)
    | none => .fatal
  else if ty = "string".data then .ok (.vStr raw)
  else .skip

/-- The mutable state of `processItem`'s per-field loop: the aggregate
`itemData` map, the (shared) history cache, the `hasChanges` flag, and
the scalar publishes emitted so far, in order. -/
structure LoopSt where
  itemData : List (Str × GVal)
  history : HistMap
  hasChanges : Bool
  published : List (Str × GVal)
deriving DecidableEq, Repr

/-- The per-field loop of `processItem`, over the positional pairs
`(fields[i], values[i])` for `i < min (len fields) (len values)` (the Go
loop ranges over `fields` and breaks at `i >= len(values)`).  `none` is
the fatal conversion-failure exit. -/
def processFields (g cat item : Str) : List (FieldDef × Str) → LoopSt → Option LoopSt
  | [], st => some st
  | (f, raw) :: rest, st =>
    if f.Name = [] ∨ f.Typ = [] then
      processFields g cat item rest st
    else if raw = [] then
      processFields g cat item rest st
    else
      match convertValue f.Typ raw with
      | .skip => processFields g cat item rest st
      | .fatal => none
      | .ok v =>
        if alookup (histKey cat item f.Name) st.history = some v then
          processFields g cat item rest { st with itemData := ainsert f.Name v st.itemData }
        else
          processFields g cat item rest
            { itemData := ainsert f.Name v st.itemData
              history := ainsert (histKey cat item f.Name) v st.history
              hasChanges := true
              published := st.published ++ [(fieldTopic g cat item f.Name, v)] }

/-- The result of one `processItem` call: the updated history cache, the
scalar publishes, and the optional aggregate (`PublishJSON`) document. -/
structure PIResult where
  history : HistMap
  published : List (Str × GVal)
  jsonPub : Option (Str × List (Str × GVal))
deriving DecidableEq, Repr

/-- `(b *Bridge) processItem(category, item, sumstate)` of bridge.go, with
the bridge fields (`gekkoName`, `fieldDef`, `history`) passed explicitly
and the `time.Now().Unix()` capture passed as `ts`.  `none` is the fatal
`os.Exit(5)` conversion-failure path; every silent `return` leaves the
history untouched and publishes nothing. -/
def processItem (g : Str) (fieldDef : List (Str × List FieldDef)) (history : HistMap)
    (cat item : Str) (sumstate : JVal) (ts : Int) : Option PIResult :=
  match sumstate with
  | .jobj sumstateMap =>
    match alookup ("value".data) sumstateMap with
    | some (.jstr valueStr) =>
      match alookup cat fieldDef with
      | none => some ⟨history, [], none⟩
      | some fields =>
        match processFields g cat item (fields.zip (splitOnChar ';' valueStr))
            ⟨[], history, false, []⟩ with
        | none => none
        | some st =>
          if st.hasChanges ∧ st.itemData ≠ [] then
            some ⟨st.history, st.published,
              some (jsonTopic g cat item, ainsert ("timestamp".data) (.vInt ts) st.itemData)⟩
          else
            some ⟨st.history, st.published, none⟩
    | _ => some ⟨history, [], none⟩
  | _ => some ⟨history, [], none⟩

/-- `(b *Bridge) handleSetCommand(topic, payload)` of bridge.go: split the
topic on `/`, require at least 4 segments (`os.Exit(8)`, modelled `none`,
otherwise), and forward `(category, item, payload-as-text)` to
`gekko.SetValue`.  The returned triple is the `SetValue` call. -/
def handleSetCommand (topic payload : Str) : Option (Str × Str × Str) :=
  let parts := splitOnChar '/' topic
  if parts.length < 4 then none
  else some (parts.getD (parts.length - 3) [], parts.getD (parts.length - 2) [], payload)

/-- The error cases of `parseFormatField` (Go `fmt.Errorf` values, with
their formatted-in argument). -/
inductive FormatErr where
  | missingType : Str → FormatErr
  | missingBracket : Str → FormatErr
  | unsupported : Str → FormatErr
deriving DecidableEq, Repr

/-- The vendor-mark stripping step of `parseFormatField`: Go
`strings.Cut(typeName, ":")`, keeping the part after the first colon when
one is present. -/
def vendorStrip (tokPre : Str) : Str :=
  match cutChar ':' tokPre with
  | some (_, after) => after
  | none => tokPre

/-- `parseFormatField(raw)` of bridge.go: trim; empty input is the
sentinel empty descriptor, not an error; split on the first space; take
the text before the first `[` of the remainder; strip an optional
vendor mark up to a colon inside that token; map
`int`/`enum` to `"int"`, `float` to `"float"`, `string` to `"string"`,
`null` to `""`; anything else is an error. -/
def parseFormatField (raw : Str) : Except FormatErr FieldDef :=
  let data := trimSpace raw
  if data = [] then .ok ⟨[], []⟩
  else
    match cutChar ' ' data with
    | none => .error (.missingType data)
    | some (name, typeData) =>
      match cutChar '[' typeData with
      | none => .error (.missingBracket typeData)
      | some (tokPre, _) =>
        let tok := vendorStrip tokPre
        if tok = "int".data ∨ tok = "enum".data then .ok ⟨name, "int".data⟩
        else if tok = "float".data then .ok ⟨name, "float".data⟩
        else if tok = "string".data then .ok ⟨name, "string".data⟩
        else if tok = "null".data then .ok ⟨name, []⟩
        else .error (.unsupported tok)

/-- The per-category format parsing loop of `LoadFieldDefinitions`: run
each `;`-segment through `parseFormatField`, skip segments that fail to
parse, and keep only descriptors with a non-empty name. -/
def parseFormats : List Str → List FieldDef
  | [] => []
  | p :: rest =>
    match parseFormatField p with
    | .error _ => parseFormats rest
    | .ok f => if f.Name ≠ [] then f :: parseFormats rest else parseFormats rest

/-- The item scan of `LoadFieldDefinitions`: the first member (in
document order; Go map iteration order is fixed to it here) whose key
begins with `"item"`, is an object, and carries a string
`sumstate.format`, yields that format string; members failing any of
those checks are passed over and the scan continues. -/
def findFormat : List (Str × JVal) → Option Str
  | [] => none
  | (itemName, itemData) :: rest =>
    if ¬ (("item".data).isPrefixOf itemName) then findFormat rest
    else
      match itemData with
      | .jobj itemMap =>
        match alookup ("sumstate".data) itemMap with
        | some (.jobj ss) =>
          match alookup ("format".data) ss with
          | some (.jstr f) => some f
          | _ => findFormat rest
        | _ => findFormat rest
      | _ => findFormat rest

/-- `LoadFieldDefinitions` of bridge.go on an already-fetched definitions
document: per category, take the first qualifying item's format string
(the Go loop `break`s after it), parse it, and record the category only
when at least one field parsed. -/
def loadFieldDefs : List (Str × JVal) → List (Str × List FieldDef)
  | [] => []
  | (category, catData) :: rest =>
    match catData with
    | .jobj catMap =>
      match findFormat catMap with
      | none => loadFieldDefs rest
      | some formatStr =>
        let fields := parseFormats (splitOnChar ';' formatStr)
        if fields.length > 0 then (category, fields) :: loadFieldDefs rest
        else loadFieldDefs rest
    | _ => loadFieldDefs rest

/-- The polling configuration slice of `MyGekkoConfig` that `RunGetter`
reads: the fast tier, the slow tier, and the round threshold. -/
structure PollCfg where
  intervalItems : List Str
  mainItems : List Str
  intervalRounds : Int
deriving Repr

/-- The fast-tier categories polled on a tick (`RunGetter` polls them
only under a `len > 0` guard, which is the identity on the polled set). -/
def fastPolled (cfg : PollCfg) : List Str :=
  if 0 < cfg.intervalItems.length then cfg.intervalItems else []

/-- The slow-tier categories polled on a threshold tick. -/
def mainPolled (cfg : PollCfg) : List Str :=
  if 0 < cfg.mainItems.length then cfg.mainItems else []

/-- One execution of `RunGetter`'s `poll` closure: increment the round
counter, always poll the fast tier, and when the counter has reached
`IntervalRounds`, reset it to zero and poll the slow tier as well.
Returns the new counter and the categories polled this tick. -/
def pollTick (cfg : PollCfg) (round : Int) : Int × List Str :=
  let round1 := round + 1
  if cfg.intervalRounds ≤ round1 then (0, fastPolled cfg ++ mainPolled cfg)
  else (round1, fastPolled cfg)

/-- The categories polled on each of `k` consecutive ticks of `RunGetter`
starting from counter value `r`; index 0 is the immediate poll `RunGetter`
performs before waiting for the first timer fire. -/
def pollTrace (cfg : PollCfg) : Nat → Int → List (List Str)
  | 0, _ => []
  | k + 1, r => (pollTick cfg r).2 :: pollTrace cfg k (pollTick cfg r).1

/-- The round counter after `k` consecutive ticks from counter value `r`. -/
def pollRounds (cfg : PollCfg) : Nat → Int → Int
  | 0, r => r
  | k + 1, r => pollRounds cfg k (pollTick cfg r).1

/-- The condition of claim C10: the sumstate document carries a
string-typed `"value"` entry (`none` when the document is not an object
or the entry is absent or not a string). -/
def hasValueString : JVal → Option Str
  | .jobj m =>
    match alookup ("value".data) m with
    | some (.jstr s) => some s
    | _ => none
  | _ => none

/-- Whether a positional `(descriptor, token)` pair is actually decoded by
`processItem`'s loop, and to which value: `none` for skipped descriptors,
empty tokens, unknown type strings, and failed conversions. -/
def converts (f : FieldDef) (raw : Str) : Option GVal :=
  if f.Name = [] ∨ f.Typ = [] then none
  else if raw = [] then none
  else
    match convertValue f.Typ raw with
    | .ok v => some v
    | _ => none

/-- A positional pair on which `processItem`'s loop takes the fatal
`os.Exit(5)` conversion-failure path. -/
def fatalPair (p : FieldDef × Str) : Prop :=
  p.1.Name ≠ [] ∧ p.1.Typ ≠ [] ∧ p.2 ≠ [] ∧ convertValue p.1.Typ p.2 = .fatal

/-- The loop invariant tying `hasChanges` to the observable effects:
once set, the aggregate map and the publish list are non-empty, and
while unset nothing has been published. -/
def LoopInv (st : LoopSt) : Prop :=
  (st.hasChanges = true → st.itemData ≠ [] ∧ st.published ≠ []) ∧
  (st.hasChanges = false → st.published = [])

/-- Equality of `parseFormatField` results is decidable (used to settle
the parser claims on concrete inputs). -/
instance : DecidableEq (Except FormatErr FieldDef) := fun
  | .ok a, .ok b => decidable_of_iff (a = b) (by simp)
  | .ok _, .error _ => isFalse (by simp)
  | .error _, .ok _ => isFalse (by simp)
  | .error a, .error b => decidable_of_iff (a = b) (by simp)

theorem alookup_ainsert_self {α : Type} (k : Str) (v : α) (m : List (Str × α)) :
    alookup k (ainsert k v m) = some v := by
  induction m with
  | nil => simp [ainsert, alookup]
  | cons p rest ih =>
    obtain ⟨k1, v1⟩ := p
    by_cases h : k = k1
    · simp [ainsert, h, alookup]
    · simp [ainsert, h, alookup, ih]

theorem alookup_ainsert_ne {α : Type} {k k1 : Str} (h : k ≠ k1) (v : α)
    (m : List (Str × α)) : alookup k (ainsert k1 v m) = alookup k m := by
  induction m with
  | nil => simp [ainsert, alookup, h]
  | cons p rest ih =>
    obtain ⟨k2, v2⟩ := p
    by_cases h2 : k1 = k2
    · subst h2; simp [ainsert, alookup, h]
    · by_cases h3 : k = k2 <;> simp [ainsert, alookup, h2, h3, ih]

theorem ainsert_ne_nil {α : Type} (k : Str) (v : α) (m : List (Str × α)) :
    ainsert k v m ≠ [] := by
  cases m with
  | nil => simp [ainsert]
  | cons p rest => simp only [ainsert]; split <;> simp

theorem alookup_isSome_ainsert {α : Type} {k : Str} {m : List (Str × α)}
    (h : (alookup k m).isSome = true) (k1 : Str) (v : α) :
    (alookup k (ainsert k1 v m)).isSome = true := by
  by_cases he : k = k1
  · subst he; simp [alookup_ainsert_self]
  · rwa [alookup_ainsert_ne he]

theorem alookup_mem {α : Type} {k : Str} {m : List (Str × α)} {v : α}
    (h : alookup k m = some v) : (k, v) ∈ m := by
  induction m with
  | nil => simp [alookup] at h
  | cons p rest ih =>
    obtain ⟨k1, v1⟩ := p
    by_cases he : k = k1
    · subst he
      rw [alookup, if_pos rfl] at h
      injection h with h2
      subst h2
      exact List.mem_cons_self _ _
    · rw [alookup, if_neg he] at h
      exact List.mem_cons_of_mem _ (ih h)

theorem append_left_cancel_str {a b c : Str} (h : a ++ b = a ++ c) : b = c := by
  induction a with
  | nil => simpa using h
  | cons x xs ih => exact ih (by simpa using h)

theorem histKey_inj {cat item n1 n2 : Str}
    (h : histKey cat item n1 = histKey cat item n2) : n1 = n2 := by
  unfold histKey at h
  have h1 := append_left_cancel_str h
  have h1b : item ++ '/' :: n1 = item ++ '/' :: n2 := by simpa using h1
  have h2 := append_left_cancel_str h1b
  simpa using h2

theorem converts_eq_some {f : FieldDef} {raw : Str} {v : GVal} :
    converts f raw = some v ↔
      f.Name ≠ [] ∧ f.Typ ≠ [] ∧ raw ≠ [] ∧ convertValue f.Typ raw = .ok v := by
  unfold converts
  by_cases h1 : f.Name = [] ∨ f.Typ = []
  · simp only [if_pos h1]
    constructor
    · intro h; cases h
    · rintro ⟨hn, ht, -, -⟩; exact absurd h1 (not_or.mpr ⟨hn, ht⟩)
  · rw [not_or] at h1
    simp only [if_neg (not_or.mpr h1)]
    by_cases h2 : raw = []
    · simp only [if_pos h2]
      constructor
      · intro h; cases h
      · rintro ⟨-, -, hr, -⟩; exact absurd h2 hr
    · simp only [if_neg h2]
      cases hc : convertValue f.Typ raw <;>
        simp [hc, h1.1, h1.2, h2]

theorem processFields_frame {g cat item : Str} {pairs : List (FieldDef × Str)}
    {st st2 : LoopSt} {k : Str}
    (hrun : processFields g cat item pairs st = some st2)
    (hk : ∀ p ∈ pairs, ∀ v, converts p.1 p.2 = some v → k ≠ histKey cat item p.1.Name) :
    alookup k st2.history = alookup k st.history := by
  induction pairs generalizing st with
  | nil =>
    simp only [processFields, Option.some.injEq] at hrun
    rw [← hrun]
  | cons q rest ih =>
    obtain ⟨f, raw⟩ := q
    have hkrest : ∀ p ∈ rest, ∀ v, converts p.1 p.2 = some v →
        k ≠ histKey cat item p.1.Name :=
      fun p hp => hk p (List.mem_cons_of_mem _ hp)
    simp only [processFields] at hrun
    by_cases h1 : f.Name = [] ∨ f.Typ = []
    · rw [if_pos h1] at hrun
      exact ih hrun hkrest
    · rw [if_neg h1] at hrun
      rw [not_or] at h1
      by_cases h2 : raw = []
      · rw [if_pos h2] at hrun
        exact ih hrun hkrest
      · rw [if_neg h2] at hrun
        cases hc : convertValue f.Typ raw with
        | skip =>
          simp only [hc] at hrun
          exact ih hrun hkrest
        | fatal => simp only [hc] at hrun; simp at hrun
        | ok v =>
          simp only [hc] at hrun
          have hkf : k ≠ histKey cat item f.Name :=
            hk (f, raw) (List.mem_cons_self _ _) v
              (converts_eq_some.mpr ⟨h1.1, h1.2, h2, hc⟩)
          by_cases h3 : alookup (histKey cat item f.Name) st.history = some v
          · rw [if_pos h3] at hrun
            have h5 := ih hrun hkrest
            exact h5
          · rw [if_neg h3] at hrun
            have h5 := ih hrun hkrest
            rw [h5]
            exact alookup_ainsert_ne hkf _ _

theorem processFields_no_fatal {g cat item : Str} {pairs : List (FieldDef × Str)}
    {st st2 : LoopSt}
    (hrun : processFields g cat item pairs st = some st2) :
    ∀ p ∈ pairs, ¬ fatalPair p := by
  induction pairs generalizing st with
  | nil => intro p hp; simp at hp
  | cons q rest ih =>
    obtain ⟨f, raw⟩ := q
    intro p hp
    simp only [processFields] at hrun
    by_cases h1 : f.Name = [] ∨ f.Typ = []
    · rw [if_pos h1] at hrun
      rcases List.mem_cons.mp hp with rfl | hm
      · intro hfp
        simp only [fatalPair] at hfp
        exact absurd h1 (not_or.mpr ⟨hfp.1, hfp.2.1⟩)
      · exact ih hrun p hm
    · rw [if_neg h1] at hrun
      by_cases h2 : raw = []
      · rw [if_pos h2] at hrun
        rcases List.mem_cons.mp hp with rfl | hm
        · intro hfp
          simp only [fatalPair] at hfp
          exact hfp.2.2.1 h2
        · exact ih hrun p hm
      · rw [if_neg h2] at hrun
        cases hc : convertValue f.Typ raw with
        | skip =>
          simp only [hc] at hrun
          rcases List.mem_cons.mp hp with rfl | hm
          · intro hfp
            simp only [fatalPair] at hfp
            rw [hc] at hfp
            cases hfp.2.2.2
          · exact ih hrun p hm
        | fatal => simp only [hc] at hrun; simp at hrun
        | ok v =>
          simp only [hc] at hrun
          rcases List.mem_cons.mp hp with rfl | hm
          · intro hfp
            simp only [fatalPair] at hfp
            rw [hc] at hfp
            cases hfp.2.2.2
          · by_cases h3 : alookup (histKey cat item f.Name) st.history = some v
            · rw [if_pos h3] at hrun; exact ih hrun p hm
            · rw [if_neg h3] at hrun; exact ih hrun p hm

theorem processFields_history_sound {g cat item : Str} {pairs : List (FieldDef × Str)}
    {st st2 : LoopSt}
    (hnd : (pairs.map fun p => p.1.Name).Nodup)
    (hrun : processFields g cat item pairs st = some st2) :
    ∀ p ∈ pairs, ∀ v, converts p.1 p.2 = some v →
      alookup (histKey cat item p.1.Name) st2.history = some v := by
  induction pairs generalizing st with
  | nil => intro p hp; simp at hp
  | cons q rest ih =>
    obtain ⟨f, raw⟩ := q
    simp only [List.map_cons, List.nodup_cons] at hnd
    obtain ⟨hnot, hndrest⟩ := hnd
    intro p hp v hcv
    simp only [processFields] at hrun
    rcases List.mem_cons.mp hp with rfl | hm
    · obtain ⟨hn, ht, hr, hc⟩ := converts_eq_some.mp hcv
      rw [if_neg (not_or.mpr ⟨hn, ht⟩), if_neg hr] at hrun
      simp only [hc] at hrun
      have hframe : ∀ p2 ∈ rest, ∀ v2, converts p2.1 p2.2 = some v2 →
          histKey cat item (f, raw).1.Name ≠ histKey cat item p2.1.Name := by
        intro p2 hp2 v2 hc2 heq
        apply hnot
        rw [histKey_inj heq]
        exact List.mem_map_of_mem _ hp2
      by_cases h3 : alookup (histKey cat item f.Name) st.history = some v
      · rw [if_pos h3] at hrun
        have h4 := processFields_frame hrun hframe
        rw [h4]
        exact h3
      · rw [if_neg h3] at hrun
        have h4 := processFields_frame hrun hframe
        rw [h4]
        exact alookup_ainsert_self _ _ _
    · by_cases h1 : f.Name = [] ∨ f.Typ = []
      · rw [if_pos h1] at hrun
        exact ih hndrest hrun p hm v hcv
      · rw [if_neg h1] at hrun
        by_cases h2 : raw = []
        · rw [if_pos h2] at hrun
          exact ih hndrest hrun p hm v hcv
        · rw [if_neg h2] at hrun
          cases hc : convertValue f.Typ raw with
          | skip =>
            simp only [hc] at hrun
            exact ih hndrest hrun p hm v hcv
          | fatal => simp only [hc] at hrun; simp at hrun
          | ok v0 =>
            simp only [hc] at hrun
            by_cases h3 : alookup (histKey cat item f.Name) st.history = some v0
            · rw [if_pos h3] at hrun
              exact ih hndrest hrun p hm v hcv
            · rw [if_neg h3] at hrun
              exact ih hndrest hrun p hm v hcv

theorem processFields_stable {g cat item : Str} {pairs : List (FieldDef × Str)} {h : HistMap}
    (hnf : ∀ p ∈ pairs, ¬ fatalPair p)
    (hlk : ∀ p ∈ pairs, ∀ v, converts p.1 p.2 = some v →
      alookup (histKey cat item p.1.Name) h = some v) :
    ∀ d ch pb, ∃ d2, processFields g cat item pairs ⟨d, h, ch, pb⟩ = some ⟨d2, h, ch, pb⟩ := by
  induction pairs with
  | nil => exact fun d ch pb => ⟨d, rfl⟩
  | cons q rest ih =>
    obtain ⟨f, raw⟩ := q
    have hnfr := fun p hp => hnf p (List.mem_cons_of_mem _ hp)
    have hlkr := fun p hp => hlk p (List.mem_cons_of_mem _ hp)
    intro d ch pb
    by_cases h1 : f.Name = [] ∨ f.Typ = []
    · obtain ⟨d2, hd2⟩ := ih hnfr hlkr d ch pb
      exact ⟨d2, by simp only [processFields, if_pos h1]; exact hd2⟩
    · rw [not_or] at h1
      by_cases h2 : raw = []
      · obtain ⟨d2, hd2⟩ := ih hnfr hlkr d ch pb
        exact ⟨d2, by
          simp only [processFields, if_neg (not_or.mpr h1), if_pos h2]
          exact hd2⟩
      · cases hc : convertValue f.Typ raw with
        | skip =>
          obtain ⟨d2, hd2⟩ := ih hnfr hlkr d ch pb
          exact ⟨d2, by
            simp only [processFields, if_neg (not_or.mpr h1), if_neg h2, hc]
            exact hd2⟩
        | fatal =>
          exfalso
          apply hnf (f, raw) (List.mem_cons_self _ _)
          simp only [fatalPair]
          exact ⟨h1.1, h1.2, h2, hc⟩
        | ok v =>
          have hlkf : alookup (histKey cat item f.Name) h = some v :=
            hlk (f, raw) (List.mem_cons_self _ _) v
              (converts_eq_some.mpr ⟨h1.1, h1.2, h2, hc⟩)
          obtain ⟨d2, hd2⟩ := ih hnfr hlkr (ainsert f.Name v d) ch pb
          exact ⟨d2, by
            simp only [processFields, if_neg (not_or.mpr h1), if_neg h2, hc, if_pos hlkf]
            exact hd2⟩

theorem processFields_inv {g cat item : Str} {pairs : List (FieldDef × Str)}
    {st st2 : LoopSt}
    (hst : LoopInv st) (hrun : processFields g cat item pairs st = some st2) :
    LoopInv st2 := by
  induction pairs generalizing st with
  | nil =>
    simp only [processFields, Option.some.injEq] at hrun
    rwa [← hrun]
  | cons q rest ih =>
    obtain ⟨f, raw⟩ := q
    simp only [processFields] at hrun
    by_cases h1 : f.Name = [] ∨ f.Typ = []
    · rw [if_pos h1] at hrun; exact ih hst hrun
    · rw [if_neg h1] at hrun
      by_cases h2 : raw = []
      · rw [if_pos h2] at hrun; exact ih hst hrun
      · rw [if_neg h2] at hrun
        cases hc : convertValue f.Typ raw with
        | skip => simp only [hc] at hrun; exact ih hst hrun
        | fatal => simp only [hc] at hrun; simp at hrun
        | ok v =>
          simp only [hc] at hrun
          obtain ⟨hI1, hI2⟩ := hst
          by_cases h3 : alookup (histKey cat item f.Name) st.history = some v
          · rw [if_pos h3] at hrun
            refine ih ?_ hrun
            exact ⟨fun hch => ⟨ainsert_ne_nil _ _ _, (hI1 hch).2⟩, hI2⟩
          · rw [if_neg h3] at hrun
            refine ih ?_ hrun
            exact ⟨fun _ => ⟨ainsert_ne_nil _ _ _, by simp⟩,
              fun hch => Bool.noConfusion hch⟩

theorem processFields_itemData_isSome {g cat item : Str} {pairs : List (FieldDef × Str)}
    {st st2 : LoopSt} {k : Str}
    (hsome : (alookup k st.itemData).isSome = true)
    (hrun : processFields g cat item pairs st = some st2) :
    (alookup k st2.itemData).isSome = true := by
  induction pairs generalizing st with
  | nil =>
    simp only [processFields, Option.some.injEq] at hrun
    rwa [← hrun]
  | cons q rest ih =>
    obtain ⟨f, raw⟩ := q
    simp only [processFields] at hrun
    by_cases h1 : f.Name = [] ∨ f.Typ = []
    · rw [if_pos h1] at hrun; exact ih hsome hrun
    · rw [if_neg h1] at hrun
      by_cases h2 : raw = []
      · rw [if_pos h2] at hrun; exact ih hsome hrun
      · rw [if_neg h2] at hrun
        cases hc : convertValue f.Typ raw with
        | skip => simp only [hc] at hrun; exact ih hsome hrun
        | fatal => simp only [hc] at hrun; simp at hrun
        | ok v =>
          simp only [hc] at hrun
          by_cases h3 : alookup (histKey cat item f.Name) st.history = some v
          · rw [if_pos h3] at hrun
            exact ih (alookup_isSome_ainsert hsome _ _) hrun
          · rw [if_neg h3] at hrun
            exact ih (alookup_isSome_ainsert hsome _ _) hrun

theorem processFields_mem_itemData {g cat item : Str} {pairs : List (FieldDef × Str)}
    {st st2 : LoopSt}
    (hrun : processFields g cat item pairs st = some st2) :
    ∀ p ∈ pairs, ∀ v, converts p.1 p.2 = some v →
      (alookup p.1.Name st2.itemData).isSome = true := by
  induction pairs generalizing st with
  | nil => intro p hp; simp at hp
  | cons q rest ih =>
    obtain ⟨f, raw⟩ := q
    intro p hp v hcv
    simp only [processFields] at hrun
    rcases List.mem_cons.mp hp with rfl | hm
    · obtain ⟨hn, ht, hr, hc⟩ := converts_eq_some.mp hcv
      rw [if_neg (not_or.mpr ⟨hn, ht⟩), if_neg hr] at hrun
      simp only [hc] at hrun
      have hbase : (alookup f.Name (ainsert f.Name v st.itemData)).isSome = true := by
        rw [alookup_ainsert_self]; rfl
      by_cases h3 : alookup (histKey cat item f.Name) st.history = some v
      · rw [if_pos h3] at hrun
        exact processFields_itemData_isSome hbase hrun
      · rw [if_neg h3] at hrun
        exact processFields_itemData_isSome hbase hrun
    · by_cases h1 : f.Name = [] ∨ f.Typ = []
      · rw [if_pos h1] at hrun
        exact ih hrun p hm v hcv
      · rw [if_neg h1] at hrun
        by_cases h2 : raw = []
        · rw [if_pos h2] at hrun
          exact ih hrun p hm v hcv
        · rw [if_neg h2] at hrun
          cases hc : convertValue f.Typ raw with
          | skip =>
            simp only [hc] at hrun
            exact ih hrun p hm v hcv
          | fatal => simp only [hc] at hrun; simp at hrun
          | ok v0 =>
            simp only [hc] at hrun
            by_cases h3 : alookup (histKey cat item f.Name) st.history = some v0
            · rw [if_pos h3] at hrun
              exact ih hrun p hm v hcv
            · rw [if_neg h3] at hrun
              exact ih hrun p hm v hcv

theorem zip_names_sublist (fields : List FieldDef) (values : List Str) :
    ((fields.zip values).map fun p => p.1.Name).Sublist (fields.map FieldDef.Name) := by
  induction fields generalizing values with
  | nil => simp
  | cons f fs ih =>
    cases values with
    | nil => simp
    | cons v vs =>
      simp only [List.zip_cons_cons, List.map_cons]
      exact List.Sublist.cons₂ _ (ih vs)

theorem zip_take_eq (fields : List FieldDef) (values : List Str) :
    fields.zip values = (fields.take values.length).zip (values.take fields.length) := by
  induction fields generalizing values with
  | nil => simp
  | cons f fs ih =>
    cases values with
    | nil => simp
    | cons v vs =>
      simp only [List.zip_cons_cons, List.length_cons, List.take_succ_cons]
      rw [ih vs]

theorem loadFieldDefs_keys {defs : List (Str × JVal)} {cat : Str}
    (h : cat ∉ defs.map Prod.fst) : alookup cat (loadFieldDefs defs) = none := by
  induction defs with
  | nil => rfl
  | cons d rest ih =>
    obtain ⟨c, cd⟩ := d
    simp only [List.map_cons, List.mem_cons, not_or] at h
    obtain ⟨hne, hrest⟩ := h
    cases cd with
    | jstr s => simp only [loadFieldDefs]; exact ih hrest
    | jother => simp only [loadFieldDefs]; exact ih hrest
    | jobj catMap =>
      simp only [loadFieldDefs]
      cases hf : findFormat catMap with
      | none => simp only [hf]; exact ih hrest
      | some fstr =>
        simp only [hf]
        by_cases hl : (parseFormats (splitOnChar ';' fstr)).length > 0
        · rw [if_pos hl]
          simp only [alookup, if_neg hne]
          exact ih hrest
        · rw [if_neg hl]
          exact ih hrest

theorem pollTrace_getD (cfg : PollCfg) :
    ∀ (k j : Nat) (r : Int), 0 ≤ r → r < cfg.intervalRounds → j < k →
      (pollTrace cfg k r).getD j [] =
        fastPolled cfg ++
          (if (r + (j : Int) + 1) % cfg.intervalRounds = 0 then mainPolled cfg else []) := by
  intro k
  induction k with
  | zero => intro j r _ _ hj; exact absurd hj (Nat.not_lt_zero j)
  | succ k ih =>
    intro j r hr0 hrN hj
    cases j with
    | zero =>
      by_cases hc : cfg.intervalRounds ≤ r + 1
      · have ht : pollTick cfg r = (0, fastPolled cfg ++ mainPolled cfg) := by
          simp [pollTick, hc]
        simp only [pollTrace]
        rw [ht]
        simp only [List.getD_cons_zero]
        have hcond : (r + ((0 : Nat) : Int) + 1) % cfg.intervalRounds = 0 := by
          rw [show r + ((0 : Nat) : Int) + 1 = cfg.intervalRounds by push_cast; omega,
            Int.emod_self]
        rw [if_pos hcond]
      · have ht : pollTick cfg r = (r + 1, fastPolled cfg) := by
          simp [pollTick, hc]
        simp only [pollTrace]
        rw [ht]
        simp only [List.getD_cons_zero]
        have hcond : (r + ((0 : Nat) : Int) + 1) % cfg.intervalRounds ≠ 0 := by
          rw [show r + ((0 : Nat) : Int) + 1 = r + 1 by push_cast; ring,
            Int.emod_eq_of_lt (by omega) (by omega)]
          omega
        rw [if_neg hcond, List.append_nil]
    | succ j =>
      by_cases hc : cfg.intervalRounds ≤ r + 1
      · have ht : pollTick cfg r = (0, fastPolled cfg ++ mainPolled cfg) := by
          simp [pollTick, hc]
        simp only [pollTrace]
        rw [ht]
        simp only [List.getD_cons_succ]
        rw [ih j 0 le_rfl (by omega) (Nat.lt_of_succ_lt_succ hj)]
        congr 1
        have h9 : r + ((j + 1 : Nat) : Int) + 1
            = ((0 : Int) + (j : Int) + 1) + cfg.intervalRounds * 1 := by
          push_cast; omega
        rw [h9, Int.add_mul_emod_self_left]
      · have ht : pollTick cfg r = (r + 1, fastPolled cfg) := by
          simp [pollTick, hc]
        simp only [pollTrace]
        rw [ht]
        simp only [List.getD_cons_succ]
        rw [ih j (r + 1) (by omega) (by omega) (Nat.lt_of_succ_lt_succ hj)]
        congr 1
        have h9 : r + 1 + (j : Int) + 1 = r + ((j + 1 : Nat) : Int) + 1 := by
          push_cast; ring
        rw [h9]

theorem pollRounds_emod (cfg : PollCfg) :
    ∀ (k : Nat) (r : Int), 0 ≤ r → r < cfg.intervalRounds →
      pollRounds cfg k r = (r + (k : Int)) % cfg.intervalRounds := by
  intro k
  induction k with
  | zero =>
    intro r hr0 hrN
    simp only [pollRounds]
    push_cast
    rw [add_zero, Int.emod_eq_of_lt hr0 hrN]
  | succ k ih =>
    intro r hr0 hrN
    simp only [pollRounds]
    by_cases hc : cfg.intervalRounds ≤ r + 1
    · have ht : (pollTick cfg r).1 = 0 := by simp [pollTick, hc]
      rw [ht, ih 0 le_rfl (by omega)]
      have h9 : r + ((k + 1 : Nat) : Int) = ((0 : Int) + (k : Int)) + cfg.intervalRounds * 1 := by
        push_cast; omega
      rw [h9, Int.add_mul_emod_self_left]
    · have ht : (pollTick cfg r).1 = r + 1 := by simp [pollTick, hc]
      rw [ht, ih (r + 1) (by omega) (by omega)]
      congr 1
      push_cast; ring

/-- C1: during decoding, for every non-Skip field whose token is non-empty
and converts successfully, the scalar publish on the field's own topic and
the overwrite of its history entry happen iff the history key is absent or
holds a different value (exact per-type equality); when the cached value
equals the decoded one, no publish is appended and the history is left
untouched (only the aggregate map gains the field). -/
theorem dedupe_publish_iff_changed (g cat item : Str) (f : FieldDef) (raw : Str)
    (rest : List (FieldDef × Str)) (st : LoopSt) (v : GVal)
    (hn : f.Name ≠ []) (ht : f.Typ ≠ []) (hr : raw ≠ [])
    (hc : convertValue f.Typ raw = .ok v) :
    (alookup (histKey cat item f.Name) st.history = some v →
      processFields g cat item ((f, raw) :: rest) st =
        processFields g cat item rest { st with itemData := ainsert f.Name v st.itemData }) ∧
    (alookup (histKey cat item f.Name) st.history ≠ some v →
      processFields g cat item ((f, raw) :: rest) st =
        processFields g cat item rest
          { itemData := ainsert f.Name v st.itemData
            history := ainsert (histKey cat item f.Name) v st.history
            hasChanges := true
            published := st.published ++ [(fieldTopic g cat item f.Name, v)] }) := by
  constructor
  · intro h3
    simp only [processFields, if_neg (not_or.mpr ⟨hn, ht⟩), if_neg hr, hc, if_pos h3]
  · intro h3
    simp only [processFields, if_neg (not_or.mpr ⟨hn, ht⟩), if_neg hr, hc, if_neg h3]

theorem dedupe_publish_iff_changed_witness :
    processFields ("G".data) ("blinds".data) ("item0".data)
        [(⟨"position".data, "int".data⟩, "50".data)] ⟨[], [], false, []⟩ =
      processFields ("G".data) ("blinds".data) ("item0".data) []
        { itemData := ainsert ("position".data) (.vInt 50) []
          history := ainsert (histKey ("blinds".data) ("item0".data) ("position".data))
            (.vInt 50) []
          hasChanges := true
          published := [] ++ [(fieldTopic ("G".data) ("blinds".data) ("item0".data)
            ("position".data), .vInt 50)] } :=
  (dedupe_publish_iff_changed ("G".data) ("blinds".data) ("item0".data)
    ⟨"position".data, "int".data⟩ ("50".data) [] ⟨[], [], false, []⟩ (.vInt 50)
    (by decide) (by decide) (by decide) (by decide)).2 (by decide)

/-- C6: token-to-descriptor alignment is strictly positional: descriptor
`i` meets token `i`; Skip descriptors (empty name or empty type) occupy
their position but are never decoded, published or recorded; an empty
token is skipped entirely; tokens beyond the descriptor count and
descriptors beyond the token count are ignored (neither is an error); a
Skip descriptor in mid-schema shifts alignment by position, as the
concrete `"50;zz;45.5"` run shows. -/
theorem positional_alignment (g cat item : Str) (f : FieldDef) (raw : Str)
    (rest : List (FieldDef × Str)) (st : LoopSt) (fields : List FieldDef)
    (values : List Str) :
    (f.Name = [] ∨ f.Typ = [] →
      processFields g cat item ((f, raw) :: rest) st = processFields g cat item rest st) ∧
    (raw = [] →
      processFields g cat item ((f, raw) :: rest) st = processFields g cat item rest st) ∧
    processFields g cat item (fields.zip values) st =
      processFields g cat item ((fields.take values.length).zip (values.take fields.length)) st ∧
    processItem ("G".data)
        [("blinds".data, [⟨"position".data, "int".data⟩, ⟨"reserved".data, []⟩,
          ⟨"angle".data, "float".data⟩])]
        [] ("blinds".data) ("item0".data)
        (.jobj [("value".data, .jstr ("50;zz;45.5".data))]) 3 =
      some ⟨[(histKey ("blinds".data) ("item0".data) ("position".data), .vInt 50),
             (histKey ("blinds".data) ("item0".data) ("angle".data), .vFloat ⟨455, 1⟩)],
            [(fieldTopic ("G".data) ("blinds".data) ("item0".data) ("position".data), .vInt 50),
             (fieldTopic ("G".data) ("blinds".data) ("item0".data) ("angle".data),
               .vFloat ⟨455, 1⟩)],
            some (jsonTopic ("G".data) ("blinds".data) ("item0".data),
              [("position".data, .vInt 50), ("angle".data, .vFloat ⟨455, 1⟩),
               ("timestamp".data, .vInt 3)])⟩ := by
  refine ⟨?_, ?_, ?_, by decide⟩
  · intro h1
    simp only [processFields, if_pos h1]
  · intro h2
    by_cases h1 : f.Name = [] ∨ f.Typ = []
    · simp only [processFields, if_pos h1]
    · simp only [processFields, if_neg h1, if_pos h2]
  · rw [← zip_take_eq]

theorem positional_alignment_witness :
    processFields ("G".data) ("c".data) ("i".data)
        [(⟨"r".data, []⟩, "zz".data)] ⟨[], [], false, []⟩ =
      processFields ("G".data) ("c".data) ("i".data) [] ⟨[], [], false, []⟩ :=
  (positional_alignment ("G".data) ("c".data) ("i".data) ⟨"r".data, []⟩ ("zz".data)
    [] ⟨[], [], false, []⟩ [] []).1 (Or.inr rfl)

/-- C7: the set-command router splits the topic on `/`, fails when fewer
than 4 segments result, and otherwise forwards the third-from-last
segment as category, second-from-last as item, and the payload text
verbatim; `"root/blinds/item0/set"` with payload `"P50"` yields
`SetValue("blinds", "item0", "P50")`, while `"root/set"` fails. -/
theorem route_set_command (topic payload : Str) :
    ((splitOnChar '/' topic).length < 4 → handleSetCommand topic payload = none) ∧
    (4 ≤ (splitOnChar '/' topic).length →
      handleSetCommand topic payload =
        some ((splitOnChar '/' topic).getD ((splitOnChar '/' topic).length - 3) [],
          (splitOnChar '/' topic).getD ((splitOnChar '/' topic).length - 2) [], payload)) ∧
    handleSetCommand ("root/blinds/item0/set".data) ("P50".data)
      = some ("blinds".data, "item0".data, "P50".data) ∧
    handleSetCommand ("root/set".data) payload = none := by
  refine ⟨?_, ?_, by decide, ?_⟩
  · intro h
    simp [handleSetCommand, h]
  · intro h
    simp [handleSetCommand, Nat.not_lt.mpr h]
  · have h4 : (splitOnChar '/' ("root/set".data)).length < 4 := by decide
    simp [handleSetCommand, h4]

theorem route_set_command_witness :
    handleSetCommand ("root/set".data) ("P50".data) = none :=
  (route_set_command ("root/set".data) ("P50".data)).1 (by decide)

/-- C8: with round count `N ≥ 1`, every tick (the immediate one at start
included) polls the fast tier, and the slow tier is polled exactly on
every `N`-th tick; the round counter is incremented once per tick and is
reset to zero on the tick at which it reaches the threshold, so after `k`
ticks it equals `k mod N`. -/
theorem polling_tiers_schedule (cfg : PollCfg) (k j : Nat)
    (hN : 1 ≤ cfg.intervalRounds) (hj : j < k) :
    (pollTrace cfg k 0).getD j [] =
      fastPolled cfg ++
        (if ((j : Int) + 1) % cfg.intervalRounds = 0 then mainPolled cfg else []) ∧
    pollRounds cfg k 0 = (k : Int) % cfg.intervalRounds := by
  constructor
  · have h := pollTrace_getD cfg k j 0 le_rfl (by omega) hj
    simpa using h
  · have h := pollRounds_emod cfg k 0 le_rfl (by omega)
    simpa using h

theorem polling_tiers_schedule_witness :
    (pollTrace ⟨["blinds".data], ["vents".data], 2⟩ 4 0).getD 1 [] =
      ["blinds".data, "vents".data] ∧
    pollRounds ⟨["blinds".data], ["vents".data], 2⟩ 4 0 = 0 := by
  have h := polling_tiers_schedule ⟨["blinds".data], ["vents".data], 2⟩ 4 1
    (by decide) (by decide)
  constructor
  · rw [h.1]; decide
  · rw [h.2]; decide

/-- C10: when the item's category has no registered schema, or the
sumstate document lacks a string-typed `"value"` entry, processing the
item publishes nothing (neither scalar nor aggregate), raises no error,
and leaves the history cache unchanged. -/
theorem unknown_category_no_effect (g : Str) (fd : List (Str × List FieldDef))
    (h : HistMap) (cat item : Str) (ss : JVal) (ts : Int)
    (hyp : alookup cat fd = none ∨ hasValueString ss = none) :
    processItem g fd h cat item ss ts = some ⟨h, [], none⟩ := by
  cases ss with
  | jstr s => rfl
  | jother => rfl
  | jobj m =>
    simp only [processItem]
    cases hv : alookup ("value".data) m with
    | none => simp [hv]
    | some jv =>
      cases jv with
      | jstr vs =>
        have hcat : alookup cat fd = none := by
          rcases hyp with hcat | hval
          · exact hcat
          · exfalso
            simp [hasValueString, hv] at hval
        simp [hv, hcat]
      | jobj m2 => simp [hv]
      | jother => simp [hv]

theorem unknown_category_no_effect_witness :
    processItem ("G".data) [] [] ("blinds".data) ("item0".data)
      (.jobj [("value".data, .jstr ("50".data))]) 0 = some ⟨[], [], none⟩ :=
  unknown_category_no_effect ("G".data) [] [] ("blinds".data) ("item0".data)
    (.jobj [("value".data, .jstr ("50".data))]) 0 (Or.inl rfl)

/-- C4: on inputs of the form `"<name> <typeSpec>"` whose type spec
contains a `[`, the parser takes the text before the first `[` as the
type token, strips an optional vendor mark up to a colon only inside
that token (the bracket is located first, so colons inside the brackets
are untouched), and maps `int` and `enum` to Integer, `float` to Float,
`string` to String, and `null` to Skip; in particular
`"unit string[xh:x=kW]"` parses to name `unit` with kind String and
`"mode #vendor:enum[a,b]"` to name `mode` with kind Integer. -/
theorem parse_field_type_mapping (raw name typeData tokPre rest2 : Str)
    (h0 : trimSpace raw ≠ [])
    (h1 : cutChar ' ' (trimSpace raw) = some (name, typeData))
    (h2 : cutChar '[' typeData = some (tokPre, rest2)) :
    (vendorStrip tokPre = "int".data ∨ vendorStrip tokPre = "enum".data →
      parseFormatField raw = .ok ⟨name, "int".data⟩) ∧
    (vendorStrip tokPre = "float".data →
      parseFormatField raw = .ok ⟨name, "float".data⟩) ∧
    (vendorStrip tokPre = "string".data →
      parseFormatField raw = .ok ⟨name, "string".data⟩) ∧
    (vendorStrip tokPre = "null".data → parseFormatField raw = .ok ⟨name, []⟩) ∧
    parseFormatField ("unit string[xh:x=kW]".data) = .ok ⟨"unit".data, "string".data⟩ ∧
    parseFormatField ("mode #vendor:enum[a,b]".data) = .ok ⟨"mode".data, "int".data⟩ := by
  refine ⟨?_, ?_, ?_, ?_, by decide, by decide⟩
  all_goals intro htok
  all_goals simp only [parseFormatField, if_neg h0, h1, h2]
  · rcases htok with h | h
    · rw [h, if_pos (Or.inl rfl)]
    · rw [h, if_pos (Or.inr rfl)]
  · rw [htok, if_neg (by decide), if_pos rfl]
  · rw [htok, if_neg (by decide), if_neg (by decide), if_pos rfl]
  · rw [htok, if_neg (by decide), if_neg (by decide), if_neg (by decide), if_pos rfl]

theorem parse_field_type_mapping_witness :
    parseFormatField ("pos int[0,100]".data) = .ok ⟨"pos".data, "int".data⟩ :=
  (parse_field_type_mapping ("pos int[0,100]".data) ("pos".data) ("int[0,100]".data)
    ("int".data) ("0,100]".data) (by decide) (by decide) (by decide)).1 (Or.inl (by decide))

/-- C5: the parser fails exactly when the trimmed input is non-empty and
either has no space, or its type spec has no `[`, or its (vendor-stripped)
type token is unsupported; an empty or whitespace-only input yields the
sentinel empty descriptor without error, and the registry builder filters
sentinels out, so every descriptor appended to a schema has a non-empty
name. -/
theorem parse_field_error_charn (raw : Str) :
    (trimSpace raw = [] → parseFormatField raw = .ok ⟨[], []⟩) ∧
    (trimSpace raw ≠ [] → cutChar ' ' (trimSpace raw) = none →
      ∃ e, parseFormatField raw = .error e) ∧
    (∀ name typeData, trimSpace raw ≠ [] →
      cutChar ' ' (trimSpace raw) = some (name, typeData) →
      cutChar '[' typeData = none → ∃ e, parseFormatField raw = .error e) ∧
    (∀ name typeData tokPre rest2, trimSpace raw ≠ [] →
      cutChar ' ' (trimSpace raw) = some (name, typeData) →
      cutChar '[' typeData = some (tokPre, rest2) →
      ¬(vendorStrip tokPre = "int".data ∨ vendorStrip tokPre = "enum".data ∨
        vendorStrip tokPre = "float".data ∨ vendorStrip tokPre = "string".data ∨
        vendorStrip tokPre = "null".data) →
      ∃ e, parseFormatField raw = .error e) ∧
    (∀ name typeData tokPre rest2, trimSpace raw ≠ [] →
      cutChar ' ' (trimSpace raw) = some (name, typeData) →
      cutChar '[' typeData = some (tokPre, rest2) →
      (vendorStrip tokPre = "int".data ∨ vendorStrip tokPre = "enum".data ∨
        vendorStrip tokPre = "float".data ∨ vendorStrip tokPre = "string".data ∨
        vendorStrip tokPre = "null".data) →
      ∃ fld, parseFormatField raw = .ok fld) ∧
    (∀ f ∈ parseFormats (splitOnChar ';' raw), f.Name ≠ []) := by
  refine ⟨?_, ?_, ?_, ?_, ?_, ?_⟩
  · intro h
    simp [parseFormatField, h]
  · intro h0 hsp
    exact ⟨.missingType (trimSpace raw), by simp [parseFormatField, if_neg h0, hsp]⟩
  · intro name typeData h0 hsp hbr
    exact ⟨.missingBracket typeData, by simp [parseFormatField, if_neg h0, hsp, hbr]⟩
  · intro name typeData tokPre rest2 h0 hsp hbr hnsup
    refine ⟨.unsupported (vendorStrip tokPre), ?_⟩
    simp only [parseFormatField, if_neg h0, hsp, hbr]
    rw [if_neg (by tauto), if_neg (by tauto), if_neg (by tauto), if_neg (by tauto)]
  · intro name typeData tokPre rest2 h0 hsp hbr hsup
    rcases hsup with h | h | h | h | h
    · exact ⟨⟨name, "int".data⟩, by
        simp only [parseFormatField, if_neg h0, hsp, hbr]
        rw [h, if_pos (Or.inl rfl)]⟩
    · exact ⟨⟨name, "int".data⟩, by
        simp only [parseFormatField, if_neg h0, hsp, hbr]
        rw [h, if_pos (Or.inr rfl)]⟩
    · exact ⟨⟨name, "float".data⟩, by
        simp only [parseFormatField, if_neg h0, hsp, hbr]
        rw [h, if_neg (by decide), if_pos rfl]⟩
    · exact ⟨⟨name, "string".data⟩, by
        simp only [parseFormatField, if_neg h0, hsp, hbr]
        rw [h, if_neg (by decide), if_neg (by decide), if_pos rfl]⟩
    · exact ⟨⟨name, []⟩, by
        simp only [parseFormatField, if_neg h0, hsp, hbr]
        rw [h, if_neg (by decide), if_neg (by decide), if_neg (by decide), if_pos rfl]⟩
  · intro f
    generalize splitOnChar ';' raw = parts
    induction parts with
    | nil => intro hf; simp [parseFormats] at hf
    | cons p rest ih =>
      intro hf
      simp only [parseFormats] at hf
      cases hp : parseFormatField p with
      | error e =>
        rw [hp] at hf
        exact ih hf
      | ok fld =>
        simp only [hp] at hf
        by_cases hn : fld.Name ≠ []
        · rw [if_pos hn] at hf
          rcases List.mem_cons.mp hf with rfl | hm
          · exact hn
          · exact ih hm
        · rw [if_neg hn] at hf
          exact ih hf

theorem parse_field_error_charn_witness :
    ∃ e, parseFormatField ("noTypeHere".data) = .error e :=
  (parse_field_error_charn ("noTypeHere".data)).2.1 (by decide) (by decide)

/-- C3: every successfully converted field is recorded in the per-item
aggregate map, and the aggregate document, augmented with a `timestamp`
key, is published on the item's all-fields topic iff at least one field
changed (equivalently, iff some scalar publish happened: the decoded-
fields condition follows); concretely, decoding `"50;45.5"` against
`[position : int, angle : float]` on an empty history produces exactly 2
scalar publishes and 1 aggregate publish carrying the timestamp. -/
theorem aggregate_publish_spec (g : Str) (fd : List (Str × List FieldDef)) (h : HistMap)
    (cat item : Str) (ss : JVal) (ts : Int) (r : PIResult) :
    (processItem g fd h cat item ss ts = some r →
      (r.jsonPub.isSome = true ↔ r.published ≠ []) ∧
      (∀ t doc, r.jsonPub = some (t, doc) →
        alookup ("timestamp".data) doc = some (.vInt ts))) ∧
    (∀ m vs fields t doc, ss = .jobj m →
      alookup ("value".data) m = some (.jstr vs) →
      alookup cat fd = some fields →
      processItem g fd h cat item ss ts = some r →
      r.jsonPub = some (t, doc) →
      ∀ f raw v, (f, raw) ∈ fields.zip (splitOnChar ';' vs) →
        converts f raw = some v → (alookup f.Name doc).isSome = true) ∧
    processItem ("g".data)
        [("blinds".data, [⟨"position".data, "int".data⟩, ⟨"angle".data, "float".data⟩])]
        [] ("blinds".data) ("item0".data)
        (.jobj [("value".data, .jstr ("50;45.5".data))]) 7 =
      some ⟨[(histKey ("blinds".data) ("item0".data) ("position".data), .vInt 50),
             (histKey ("blinds".data) ("item0".data) ("angle".data), .vFloat ⟨455, 1⟩)],
            [(fieldTopic ("g".data) ("blinds".data) ("item0".data) ("position".data), .vInt 50),
             (fieldTopic ("g".data) ("blinds".data) ("item0".data) ("angle".data),
               .vFloat ⟨455, 1⟩)],
            some (jsonTopic ("g".data) ("blinds".data) ("item0".data),
              [("position".data, .vInt 50), ("angle".data, .vFloat ⟨455, 1⟩),
               ("timestamp".data, .vInt 7)])⟩ := by
  refine ⟨?_, ?_, by decide⟩
  · intro hpi
    cases ss with
    | jstr s =>
      simp only [processItem, Option.some.injEq] at hpi
      subst hpi
      simp
    | jother =>
      simp only [processItem, Option.some.injEq] at hpi
      subst hpi
      simp
    | jobj m =>
      simp only [processItem] at hpi
      cases hv : alookup ("value".data) m with
      | none =>
        simp only [hv, Option.some.injEq] at hpi
        subst hpi
        simp
      | some jv =>
        cases jv with
        | jobj m2 =>
          simp only [hv, Option.some.injEq] at hpi
          subst hpi
          simp
        | jother =>
          simp only [hv, Option.some.injEq] at hpi
          subst hpi
          simp
        | jstr vs =>
          simp only [hv] at hpi
          cases hcat : alookup cat fd with
          | none =>
            simp only [hcat, Option.some.injEq] at hpi
            subst hpi
            simp
          | some fields =>
            simp only [hcat] at hpi
            cases hrun : processFields g cat item (fields.zip (splitOnChar ';' vs))
                ⟨[], h, false, []⟩ with
            | none => simp only [hrun] at hpi; simp at hpi
            | some st =>
              simp only [hrun] at hpi
              have hinv := processFields_inv
                (⟨fun hch => Bool.noConfusion hch, fun _ => rfl⟩ : LoopInv ⟨[], h, false, []⟩)
                hrun
              by_cases hcond : st.hasChanges ∧ st.itemData ≠ []
              · rw [if_pos hcond] at hpi
                simp only [Option.some.injEq] at hpi
                subst hpi
                constructor
                · have hpub : st.published ≠ [] := (hinv.1 hcond.1).2
                  simp [hpub]
                · intro t doc heq
                  simp only [Option.some.injEq, Prod.mk.injEq] at heq
                  obtain ⟨-, hdoc⟩ := heq
                  subst hdoc
                  exact alookup_ainsert_self _ _ _
              · rw [if_neg hcond] at hpi
                simp only [Option.some.injEq] at hpi
                subst hpi
                constructor
                · have hpub : st.published = [] := by
                    by_cases hch : st.hasChanges = true
                    · exact absurd ⟨hch, (hinv.1 hch).1⟩ hcond
                    · rw [Bool.not_eq_true] at hch
                      exact hinv.2 hch
                  simp [hpub]
                · intro t doc heq
                  simp at heq
  · intro m vs fields t doc hss hv hcat hpi hjson f raw v hmem hcv
    subst hss
    simp only [processItem, hv, hcat] at hpi
    cases hrun : processFields g cat item (fields.zip (splitOnChar ';' vs))
        ⟨[], h, false, []⟩ with
    | none => simp only [hrun] at hpi; simp at hpi
    | some st =>
      simp only [hrun] at hpi
      by_cases hcond : st.hasChanges ∧ st.itemData ≠ []
      · rw [if_pos hcond] at hpi
        simp only [Option.some.injEq] at hpi
        subst hpi
        simp only [Option.some.injEq, Prod.mk.injEq] at hjson
        obtain ⟨-, hdoc⟩ := hjson
        subst hdoc
        have hmemI := processFields_mem_itemData hrun (f, raw) hmem v hcv
        exact alookup_isSome_ainsert hmemI _ _
      · rw [if_neg hcond] at hpi
        simp only [Option.some.injEq] at hpi
        subst hpi
        simp at hjson

theorem aggregate_publish_spec_witness :
    alookup ("timestamp".data)
        [("position".data, GVal.vInt 50), ("angle".data, GVal.vFloat ⟨455, 1⟩),
         ("timestamp".data, GVal.vInt 7)] = some (.vInt 7) := by
  have h := (aggregate_publish_spec ("g".data)
    [("blinds".data, [⟨"position".data, "int".data⟩, ⟨"angle".data, "float".data⟩])]
    [] ("blinds".data) ("item0".data)
    (.jobj [("value".data, .jstr ("50;45.5".data))]) 7
    ⟨[(histKey ("blinds".data) ("item0".data) ("position".data), .vInt 50),
      (histKey ("blinds".data) ("item0".data) ("angle".data), .vFloat ⟨455, 1⟩)],
     [(fieldTopic ("g".data) ("blinds".data) ("item0".data) ("position".data), .vInt 50),
      (fieldTopic ("g".data) ("blinds".data) ("item0".data) ("angle".data),
        .vFloat ⟨455, 1⟩)],
     some (jsonTopic ("g".data) ("blinds".data) ("item0".data),
       [("position".data, .vInt 50), ("angle".data, .vFloat ⟨455, 1⟩),
        ("timestamp".data, .vInt 7)])⟩).1 (by decide)
  exact h.2 (jsonTopic ("g".data) ("blinds".data) ("item0".data))
    [("position".data, .vInt 50), ("angle".data, .vFloat ⟨455, 1⟩),
     ("timestamp".data, .vInt 7)] rfl

/-- C2 counterexample: with the schema `[a : int, a : int]` (two fields
sharing one name, hence one history key) and value string `"1;2"`, the
first decode succeeds, and the second decode of the identical string
against the resulting history again emits 2 scalar publishes: the
second call is not publish-free, refuting the unconditional claim. -/
theorem decode_twice_not_silent_cex :
    ((processItem ("G".data)
        [("blinds".data, [⟨"a".data, "int".data⟩, ⟨"a".data, "int".data⟩])]
        [] ("blinds".data) ("item0".data)
        (.jobj [("value".data, .jstr ("1;2".data))]) 0).bind fun r1 =>
      (processItem ("G".data)
        [("blinds".data, [⟨"a".data, "int".data⟩, ⟨"a".data, "int".data⟩])]
        r1.history ("blinds".data) ("item0".data)
        (.jobj [("value".data, .jstr ("1;2".data))]) 0).map fun r2 =>
          r2.published.length) = some 2 := by
  decide

/-- C2 (amended): provided every registered schema's field names are
pairwise distinct, re-decoding the identical raw value string against the
history produced by a first decode yields no scalar publishes, no
aggregate document, and an unchanged history cache. -/
theorem decode_twice_silent (g : Str) (fd : List (Str × List FieldDef)) (h : HistMap)
    (cat item : Str) (ss : JVal) (ts ts2 : Int) (r : PIResult)
    (hnd : ∀ p ∈ fd, (p.2.map FieldDef.Name).Nodup)
    (hpi : processItem g fd h cat item ss ts = some r) :
    processItem g fd r.history cat item ss ts2 = some ⟨r.history, [], none⟩ := by
  cases ss with
  | jstr s =>
    simp only [processItem, Option.some.injEq] at hpi
    subst hpi
    rfl
  | jother =>
    simp only [processItem, Option.some.injEq] at hpi
    subst hpi
    rfl
  | jobj m =>
    simp only [processItem] at hpi ⊢
    cases hv : alookup ("value".data) m with
    | none => simp only [hv] at hpi ⊢
    | some jv =>
      cases jv with
      | jobj m2 => simp only [hv] at hpi ⊢
      | jother => simp only [hv] at hpi ⊢
      | jstr vs =>
        simp only [hv] at hpi ⊢
        cases hcat : alookup cat fd with
        | none => simp only [hcat] at hpi ⊢
        | some fields =>
          simp only [hcat] at hpi ⊢
          cases hrun : processFields g cat item (fields.zip (splitOnChar ';' vs))
              ⟨[], h, false, []⟩ with
          | none => simp only [hrun] at hpi; simp at hpi
          | some st =>
            simp only [hrun] at hpi
            have hnd2 : ((fields.zip (splitOnChar ';' vs)).map fun p => p.1.Name).Nodup := by
              have hfieldsnd := hnd (cat, fields) (alookup_mem hcat)
              exact List.Nodup.sublist (zip_names_sublist fields (splitOnChar ';' vs)) hfieldsnd
            have hsound := processFields_history_sound hnd2 hrun
            have hnofatal := processFields_no_fatal hrun
            have hhist : r.history = st.history := by
              by_cases hcond : st.hasChanges ∧ st.itemData ≠ []
              · rw [if_pos hcond] at hpi
                simp only [Option.some.injEq] at hpi
                rw [← hpi]
              · rw [if_neg hcond] at hpi
                simp only [Option.some.injEq] at hpi
                rw [← hpi]
            rw [hhist]
            obtain ⟨d2, hrun2⟩ := @processFields_stable g cat item
              (fields.zip (splitOnChar ';' vs)) st.history hnofatal hsound [] false []
            simp only [hrun2]
            rw [if_neg (by simp)]

theorem decode_twice_silent_witness :
    processItem ("G".data) [("blinds".data, [⟨"position".data, "int".data⟩])]
        [(histKey ("blinds".data) ("item0".data) ("position".data), GVal.vInt 50)]
        ("blinds".data) ("item0".data) (.jobj [("value".data, .jstr ("50".data))]) 2 =
      some ⟨[(histKey ("blinds".data) ("item0".data) ("position".data), .vInt 50)],
        [], none⟩ := by
  have h := decode_twice_silent ("G".data)
    [("blinds".data, [⟨"position".data, "int".data⟩])]
    [] ("blinds".data) ("item0".data) (.jobj [("value".data, .jstr ("50".data))]) 1 2
    ⟨[(histKey ("blinds".data) ("item0".data) ("position".data), .vInt 50)],
     [(fieldTopic ("G".data) ("blinds".data) ("item0".data) ("position".data), .vInt 50)],
     some (jsonTopic ("G".data) ("blinds".data) ("item0".data),
       [("position".data, .vInt 50), ("timestamp".data, .vInt 1)])⟩
    (by decide) (by decide)
  exact h

/-- C9 counterexample: the definitions document for category `cat` has a
first `item`-prefixed member (`item0`) carrying format `"bad"` (zero
fields parse) and a second one (`item1`) carrying `"pos int[0,100]"`,
from which one non-empty field parses; yet the category is absent from
the registry, because the builder consults only the first member that
provides a format string and never reaches `item1` — refuting the
claim's "iff some member" direction. -/
theorem registry_existential_cex :
    ("item".data).isPrefixOf ("item1".data) = true ∧
    parseFormats (splitOnChar ';' ("pos int[0,100]".data)) = [⟨"pos".data, "int".data⟩] ∧
    alookup ("cat".data)
      (loadFieldDefs
        [("cat".data, .jobj
          [("item0".data, .jobj
            [("sumstate".data, .jobj [("format".data, .jstr ("bad".data))])]),
           ("item1".data, .jobj
            [("sumstate".data, .jobj
              [("format".data, .jstr ("pos int[0,100]".data))])])])]) = none := by
  decide

/-- C9 (amended): a category appears in the registry iff its definition
entry is an object whose first qualifying member (the first member, in
document order, whose key begins with `"item"`, is an object, and carries
a string `sumstate.format`) yields at least one successfully parsed
non-empty field; in that case the registered schema is exactly the parse
of that first member's format string (later qualifying members are never
consulted), segments that fail to parse are skipped individually, and a
category with no qualifying member or zero parsed fields is absent
without error. -/
theorem registry_membership_first_item (defs : List (Str × JVal)) (cat : Str)
    (hnd : (defs.map Prod.fst).Nodup) :
    ((alookup cat (loadFieldDefs defs)).isSome = true ↔
      ∃ catMap fstr, alookup cat defs = some (.jobj catMap) ∧
        findFormat catMap = some fstr ∧ parseFormats (splitOnChar ';' fstr) ≠ []) ∧
    (∀ catMap fstr, alookup cat defs = some (.jobj catMap) → findFormat catMap = some fstr →
      parseFormats (splitOnChar ';' fstr) ≠ [] →
      alookup cat (loadFieldDefs defs) = some (parseFormats (splitOnChar ';' fstr))) := by
  induction defs with
  | nil =>
    constructor
    · simp [alookup, loadFieldDefs]
    · intro catMap fstr hlk
      simp [alookup] at hlk
  | cons d rest ih =>
    obtain ⟨c, cd⟩ := d
    simp only [List.map_cons, List.nodup_cons] at hnd
    obtain ⟨hnotin, hndrest⟩ := hnd
    have ihr := ih hndrest
    by_cases he : cat = c
    · subst he
      cases cd with
      | jstr s =>
        have hnone := loadFieldDefs_keys hnotin
        constructor
        · simp [loadFieldDefs, hnone, alookup]
        · intro catMap fstr hlk
          rw [alookup, if_pos rfl] at hlk
          simp at hlk
      | jother =>
        have hnone := loadFieldDefs_keys hnotin
        constructor
        · simp [loadFieldDefs, hnone, alookup]
        · intro catMap fstr hlk
          rw [alookup, if_pos rfl] at hlk
          simp at hlk
      | jobj catMap0 =>
        cases hf : findFormat catMap0 with
        | none =>
          have hnone := loadFieldDefs_keys hnotin
          constructor
          · simp [loadFieldDefs, hf, hnone, alookup]
          · intro catMap fstr hlk hff
            rw [alookup, if_pos rfl] at hlk
            injection hlk with h2
            injection h2 with h3
            subst h3
            rw [hf] at hff
            exact fun _ => Option.noConfusion hff
        | some fstr0 =>
          by_cases hl : parseFormats (splitOnChar ';' fstr0) ≠ []
          · have hlen : (parseFormats (splitOnChar ';' fstr0)).length > 0 :=
              List.length_pos.mpr hl
            constructor
            · constructor
              · intro _
                exact ⟨catMap0, fstr0, by rw [alookup, if_pos rfl], hf, hl⟩
              · intro _
                simp [loadFieldDefs, hf, hlen, alookup]
            · intro catMap fstr hlk hff hne
              rw [alookup, if_pos rfl] at hlk
              injection hlk with h2
              injection h2 with h3
              subst h3
              rw [hf] at hff
              injection hff with h4
              subst h4
              simp [loadFieldDefs, hf, hlen, alookup]
          · rw [not_not] at hl
            have hnone := loadFieldDefs_keys hnotin
            constructor
            · simp [loadFieldDefs, hf, hl, hnone, alookup]
            · intro catMap fstr hlk hff hne
              rw [alookup, if_pos rfl] at hlk
              injection hlk with h2
              injection h2 with h3
              subst h3
              rw [hf] at hff
              injection hff with h4
              subst h4
              exact absurd hl hne
    · have hskip : alookup cat (loadFieldDefs ((c, cd) :: rest))
          = alookup cat (loadFieldDefs rest) := by
        cases cd with
        | jstr s => simp [loadFieldDefs]
        | jother => simp [loadFieldDefs]
        | jobj catMap0 =>
          simp only [loadFieldDefs]
          cases hf : findFormat catMap0 with
          | none => simp [hf]
          | some fstr0 =>
            simp only [hf]
            by_cases hlen : (parseFormats (splitOnChar ';' fstr0)).length > 0
            · rw [if_pos hlen, alookup, if_neg he]
            · rw [if_neg hlen]
      constructor
      · rw [hskip, alookup, if_neg he]
        exact ihr.1
      · intro catMap fstr hlk hff hne
        rw [alookup, if_neg he] at hlk
        rw [hskip]
        exact ihr.2 catMap fstr hlk hff hne

theorem registry_membership_first_item_witness :
    alookup ("cat".data)
      (loadFieldDefs
        [("cat".data, .jobj
          [("item0".data, .jobj
            [("sumstate".data, .jobj
              [("format".data, .jstr ("pos int[0,100]".data))])])])]) =
      some [⟨"pos".data, "int".data⟩] := by
  have h := (registry_membership_first_item
    [("cat".data, .jobj
      [("item0".data, .jobj
        [("sumstate".data, .jobj
          [("format".data, .jstr ("pos int[0,100]".data))])])])]
    ("cat".data) (by simp)).2
    [("item0".data, .jobj
      [("sumstate".data, .jobj
        [("format".data, .jstr ("pos int[0,100]".data))])])]
    ("pos int[0,100]".data) rfl rfl (by decide)
  rw [h]
  decide
